import Mathlib

/-!
Verification of the obamify repository's headless tools against its
specification.

The repository sources modelled here are:
- `src/bin/generate_assignments.rs` (worker thread, progress consumer loop,
  and the `write_results` output reconstruction),
- `src/bin/generate_weights.rs` (grayscale weight-mask derivation),
- `src/app/preset.rs` (the `Preset` / `UnprocessedPreset` data model).

Pixel buffers are modelled as `List Nat` of bytes (row-major, 3 bytes per
pixel for RGB, 1 for grayscale).  Rust's panicking index accesses are
modelled as `Option`-returning operations: an out-of-bounds access makes
the whole computation return `none`.
-/

namespace Obamify

/-! ## Assignment application (`write_results`, generate_assignments.rs:154-161)

```rust
let mut output = vec![0u8; source.len()];
for (dst_idx, src_idx) in assignments.iter().enumerate() {
    let dst_base = dst_idx * 3;
    let src_base = src_idx * 3;
    output[dst_base] = source[src_base];
    output[dst_base + 1] = source[src_base + 1];
    output[dst_base + 2] = source[src_base + 2];
}
```
-/

/-- Write byte `v` at index `i` of `output`; models Rust's `output[i] = v`,
which panics (here: `none`) when `i` is out of bounds. -/
def setByte (output : List Nat) (i v : Nat) : Option (List Nat) :=
  if i < output.length then some (output.set i v) else none

/-- One iteration of the `write_results` copy loop: copy the 3 bytes of
source pixel `src` to destination slot `dst`.  Reads `source[src*3 .. src*3+2]`
and writes `output[dst*3 .. dst*3+2]`; any out-of-bounds access is `none`. -/
def copyPixel (source output : List Nat) (dst src : Nat) : Option (List Nat) :=
  (source[src * 3]?).bind fun b0 =>
  (source[src * 3 + 1]?).bind fun b1 =>
  (source[src * 3 + 2]?).bind fun b2 =>
  (setByte output (dst * 3) b0).bind fun o0 =>
  (setByte o0 (dst * 3 + 1) b1).bind fun o1 =>
  setByte o1 (dst * 3 + 2) b2

/-- The `for (dst_idx, src_idx) in assignments.iter().enumerate()` loop of
`write_results`, with `dst` the current value of `dst_idx`. -/
def applyLoop (source : List Nat) : List Nat → Nat → List Nat → Option (List Nat)
  | [], _, output => some output
  | src :: rest, dst, output =>
      (copyPixel source output dst src).bind fun output' =>
        applyLoop source rest (dst + 1) output'

/-- Assignment application as implemented by `write_results`: allocate an
output buffer of `source.length` zero bytes and run the copy loop. -/
def applyAssignments (source assignments : List Nat) : Option (List Nat) :=
  applyLoop source assignments 0 (List.replicate source.length 0)

/-! ## Command-line numeric arguments

Both binaries parse optional numeric arguments with
`arg.and_then(|s| s.parse::<u32>().ok()).unwrap_or(default)`.
-/

/-- Model of Rust's `str::parse::<u32>()`: an optional leading `+` sign
followed by one or more ASCII digits; any other character, an empty digit
string, or a value that does not fit in 32 bits yields `Err` (here `none`). -/
def parseU32 (s : String) : Option Nat :=
  let ds := match s.data with
    | '+' :: rest => rest
    | cs => cs
  if ds ≠ [] ∧ ds.all Char.isDigit = true then
    let v := ds.foldl (fun acc c => acc * 10 + (c.toNat - 48)) 0
    if v < 4294967296 then some v else none
  else none

/-- The `sidelen` computation of generate_assignments.rs:62-65:
`sidelen_arg.as_deref().and_then(|s| s.parse::<u32>().ok()).unwrap_or_else(|| source.width())`. -/
def sidelenOf (sidelen_arg : Option String) (source_width : Nat) : Nat :=
  (sidelen_arg.bind parseU32).getD source_width

/-- The `side` computation of generate_weights.rs:35-38:
`size_arg.as_deref().and_then(|s| s.parse::<u32>().ok()).unwrap_or(width.min(height))`. -/
def weightsSide (size_arg : Option String) (width height : Nat) : Nat :=
  (size_arg.bind parseU32).getD (min width height)

/-! ## Weight-mask derivation (generate_weights.rs:35-43) -/

/-- An RGB image buffer: row-major, 3 bytes per pixel. -/
structure RgbImage where
  width : Nat
  height : Nat
  data : List Nat

/-- A single-channel grayscale image buffer: row-major, 1 byte per pixel. -/
structure GrayImage where
  width : Nat
  height : Nat
  data : List Nat

/-- Modelled from the spec: the weight-mask collaborator converts an image
"to a single-channel grid ... where brighter = higher weight".  The `image`
crate's floating-point `to_luma8` conversion is external library code,
modelled by integer BT.709-style luminance on the byte scale. -/
def luminance (r g b : Nat) : Nat := (2126 * r + 7152 * g + 722 * b) / 10000

/-- Modelled from the spec: per-pixel luminance conversion of an RGB image
to a single-channel grayscale image of the same dimensions (the `image`
crate's `DynamicImage::to_luma8`). -/
def toLuma8 (img : RgbImage) : GrayImage :=
  { width := img.width, height := img.height,
    data := (List.range (img.width * img.height)).map fun i =>
      luminance (img.data.getD (3 * i) 0) (img.data.getD (3 * i + 1) 0)
        (img.data.getD (3 * i + 2) 0) }

/-- Modelled from the spec: resampling of a grayscale grid to the requested
dimensions (the `image` crate's `imageops::resize`).  The Lanczos3 filter
kernel is external floating-point library code; it is modelled by a
dimension-correct nearest-neighbour resampler over the existing samples. -/
def resizeGray (img : GrayImage) (w h : Nat) : GrayImage :=
  { width := w, height := h,
    data := (List.range (w * h)).map fun i =>
      img.data.getD ((i / w * img.height / h) * img.width +
        (i % w * img.width / w)) 0 }

/-- The weight-mask pipeline of generate_weights.rs:35-43: compute the side,
convert to grayscale, and resize exactly when the grayscale dimensions
differ from the requested side. -/
def generateWeights (img : RgbImage) (size_arg : Option String) : GrayImage :=
  let side := weightsSide size_arg img.width img.height
  let gray := toLuma8 img
  if gray.width ≠ side ∨ gray.height ≠ side then resizeGray gray side side
  else gray

/-! ## Data model (src/app/preset.rs) and progress channel -/

/-- `UnprocessedPreset` of src/app/preset.rs: the run's raw input. -/
structure UnprocessedPreset where
  name : String
  width : Nat
  height : Nat
  source_img : List Nat
  deriving DecidableEq

/-- `Preset` of src/app/preset.rs: the full persistable result of a run. -/
structure Preset where
  inner : UnprocessedPreset
  assignments : List Nat
  target_img : Option (List Nat)
  deriving DecidableEq

/-- The progress-channel message type, with the variants matched by the
consumer loop of generate_assignments.rs:110-134.  The `Progress` payload is
an `f32` fraction in the source; floating point is modelled by `ℚ`. -/
inductive ProgressMsg where
  | Progress (p : ℚ)
  | UpdatePreview (preview : List Nat)
  | UpdateAssignments (assignments : List Nat)
  | Done (preset : Preset)
  | Error (msg : String)
  | Cancelled
  deriving DecidableEq

/-- Whether a message is terminal (`Done`, `Error`, or `Cancelled`). -/
def isTerminal : ProgressMsg → Bool
  | .Done _ => true
  | .Error _ => true
  | .Cancelled => true
  | _ => false

/-- The first terminal message on the channel, if any. -/
def firstTerminal (msgs : List ProgressMsg) : Option ProgressMsg :=
  msgs.find? isTerminal

/-- The messages the worker thread of generate_assignments.rs:92-105 puts on
the channel: whatever the solver sent, followed by `Error(err.to_string())`
exactly when the solver function returned an `Err`. -/
def workerMessages (solverSent : List ProgressMsg) (res : Except String Unit) :
    List ProgressMsg :=
  solverSent ++ (match res with
    | .error e => [ProgressMsg.Error e]
    | .ok _ => [])

/-- Outcome of the consumer loop of generate_assignments.rs:108-135. -/
inductive ConsumeOutcome where
  | doneOk (files : List String)
  | errorExit (msg : String)
  | cancelledExit
  | channelClosed
  deriving DecidableEq

/-- The files `write_results` (generate_assignments.rs:146-188) writes for a
preset, in order: `source.png`, `target.png` when a target buffer is
present, `output.png`, and `assignments.json`. -/
def filesFor (p : Preset) : List String :=
  ["source.png"] ++
    (match p.target_img with
      | some _ => ["target.png"]
      | none => []) ++
    ["output.png", "assignments.json"]

/-- The consumer loop of generate_assignments.rs:108-135: drain messages in
order, skip `Progress`/`UpdatePreview`/`UpdateAssignments`, stop at the
first terminal message (writing the result files only for `Done`), and stop
with nothing written when the channel closes. -/
def consume : List ProgressMsg → ConsumeOutcome
  | [] => .channelClosed
  | .Progress _ :: rest => consume rest
  | .UpdatePreview _ :: rest => consume rest
  | .UpdateAssignments _ :: rest => consume rest
  | .Done p :: _ => .doneOk (filesFor p)
  | .Error e :: _ => .errorExit e
  | .Cancelled :: _ => .cancelledExit

/-- The result files written during the consumer loop. -/
def writtenFiles : ConsumeOutcome → List String
  | .doneOk fs => fs
  | _ => []

/-- The process exit status of generate_assignments.rs:139-141: zero only
when `done` was set, i.e. only in the `Done` branch. -/
def exitCode : ConsumeOutcome → Nat
  | .doneOk _ => 0
  | _ => 1

/-! ## Persisted assignment serialization (generate_assignments.rs:182-185)

`write_results` persists the assignment with
`serde_json::to_string(assignments)` where `assignments : &Vec<usize>`.
`serde_json` is external library code; modelled from the spec: the persisted
representation is "an ordered numeric array" — a JSON array of decimal
numerals such as `[3,1,2]`.
-/

/-- Decimal digits of `n`, least significant first (never empty). -/
def natToRevDigits (n : Nat) : List Nat :=
  if n < 10 then [n] else n % 10 :: natToRevDigits (n / 10)
termination_by n
decreasing_by exact Nat.div_lt_self (by omega) (by omega)

/-- The character of a decimal digit. -/
def digitChar (d : Nat) : Char := Char.ofNat (48 + d)

/-- Decimal numeral of `n`, most significant digit first. -/
def natToChars (n : Nat) : List Char :=
  (natToRevDigits n).reverse.map digitChar

/-- Serialized elements of a nonempty JSON array, together with the closing
bracket; the empty list serializes to just the closing bracket. -/
def serializeElems : List Nat → List Char
  | [] => [']']
  | n :: rest =>
    natToChars n ++
      (match rest with
        | [] => [']']
        | _ :: _ => ',' :: serializeElems rest)

/-- Modelled from the spec: JSON serialization of the persisted assignment
array, `serde_json::to_string(assignments)` — e.g. `[3,1,2]`, `[]`. -/
def serializeAssignments (l : List Nat) : String :=
  ⟨'[' :: serializeElems l⟩

/-- Consume a maximal run of decimal digits, accumulating their value onto
`acc`; returns the value and the unconsumed remainder. -/
def parseDigits : List Char → Nat → Nat × List Char
  | [], acc => (acc, [])
  | c :: cs, acc =>
    if c.isDigit then parseDigits cs (acc * 10 + (c.toNat - 48))
    else (acc, c :: cs)

/-- Parse the comma-separated elements of a nonempty JSON array of numerals,
up to and including the closing bracket.  The fuel argument bounds the
number of elements; the input length always suffices. -/
def parseElemsF : Nat → List Char → Option (List Nat)
  | 0, _ => none
  | _ + 1, [] => none
  | fuel + 1, c :: cs =>
    if c.isDigit then
      match parseDigits (c :: cs) 0 with
      | (n, ',' :: more) => (parseElemsF fuel more).map fun l => n :: l
      | (n, [']']) => some [n]
      | _ => none
    else none

/-- Modelled from the spec: JSON deserialization of the persisted assignment
array (`serde_json::from_str::<Vec<usize>>`), accepting exactly the arrays
of decimal numerals. -/
def parseAssignmentsJson (s : String) : Option (List Nat) :=
  match s.data with
  | '[' :: rest =>
    match rest with
    | [']'] => some []
    | _ => parseElemsF rest.length rest
  | _ => none

/-! ### Lemmas about the copy loop -/

theorem setByte_length {output : List Nat} {i v : Nat} {o : List Nat}
    (h : setByte output i v = some o) : o.length = output.length := by
  unfold setByte at h
  split at h
  · cases h; simp
  · cases h

theorem setByte_isSome {output : List Nat} {i v : Nat} (h : i < output.length) :
    setByte output i v = some (output.set i v) := by
  unfold setByte
  simp [h]

theorem setByte_get_ne {output : List Nat} {i v : Nat} {o : List Nat}
    (h : setByte output i v = some o) {j : Nat} (hj : i ≠ j) :
    o[j]? = output[j]? := by
  unfold setByte at h
  split at h
  · cases h; exact List.getElem?_set_ne hj
  · cases h

theorem setByte_get_eq {output : List Nat} {i v : Nat} {o : List Nat}
    (h : setByte output i v = some o) (hi : i < output.length) :
    o[i]? = some v := by
  rw [setByte_isSome hi] at h
  cases h
  exact List.getElem?_set_eq_of_lt v hi

/-- Full characterization of one copy-loop iteration when every access is
in bounds: it succeeds, preserves the buffer length, writes the three source
bytes of pixel `src` at slot `dst`, and leaves every other byte unchanged. -/
theorem copyPixel_spec (source output : List Nat) (dst src : Nat)
    (hsrc : src * 3 + 2 < source.length) (hdst : dst * 3 + 2 < output.length) :
    ∃ o, copyPixel source output dst src = some o ∧
      o.length = output.length ∧
      (∀ c, c < 3 → o[dst * 3 + c]? = source[src * 3 + c]?) ∧
      (∀ j, j < dst * 3 ∨ dst * 3 + 2 < j → o[j]? = output[j]?) := by
  have h0 : src * 3 < source.length := by omega
  have h1 : src * 3 + 1 < source.length := by omega
  have hd0 : dst * 3 < output.length := by omega
  have hd1 : dst * 3 + 1 < (output.set (dst * 3) (source.get ⟨src * 3, h0⟩)).length := by
    simp only [List.length_set]; omega
  set b0 := source.get ⟨src * 3, h0⟩ with hb0def
  set b1 := source.get ⟨src * 3 + 1, h1⟩ with hb1def
  set b2 := source.get ⟨src * 3 + 2, hsrc⟩ with hb2def
  set o0 := output.set (dst * 3) b0 with ho0def
  set o1 := o0.set (dst * 3 + 1) b1 with ho1def
  set o2 := o1.set (dst * 3 + 2) b2 with ho2def
  have hd2 : dst * 3 + 2 < o1.length := by
    simp only [ho1def, ho0def, List.length_set]; omega
  have hgb0 : source[src * 3]? = some b0 := List.getElem?_eq_getElem h0
  have hgb1 : source[src * 3 + 1]? = some b1 := List.getElem?_eq_getElem h1
  have hgb2 : source[src * 3 + 2]? = some b2 := List.getElem?_eq_getElem hsrc
  refine ⟨o2, ?_, ?_, ?_, ?_⟩
  · rw [copyPixel, hgb0, Option.some_bind, hgb1, Option.some_bind, hgb2,
      Option.some_bind, setByte_isSome hd0, Option.some_bind,
      setByte_isSome hd1, Option.some_bind, setByte_isSome hd2]
  · simp only [ho2def, ho1def, ho0def, List.length_set]
  · intro c hc
    have hc3 : c = 0 ∨ c = 1 ∨ c = 2 := by omega
    rcases hc3 with rfl | rfl | rfl
    · simp only [Nat.add_zero]
      rw [ho2def, List.getElem?_set_ne (by omega), ho1def,
        List.getElem?_set_ne (by omega), ho0def,
        List.getElem?_set_eq_of_lt b0 hd0, hgb0]
    · rw [ho2def, List.getElem?_set_ne (by omega), ho1def,
        List.getElem?_set_eq_of_lt b1 hd1, hgb1]
    · rw [ho2def, List.getElem?_set_eq_of_lt b2 hd2, hgb2]
  · intro j hj
    rw [ho2def, List.getElem?_set_ne (by omega), ho1def,
      List.getElem?_set_ne (by omega), ho0def, List.getElem?_set_ne (by omega)]

/-- Full characterization of the `write_results` copy loop when every source
index is in bounds and the output buffer has room for all destination slots:
it succeeds, preserves the output length, writes slot `dst + i` from source
pixel `rest[i]`, and leaves all bytes below `dst * 3` and at or above
`(dst + rest.length) * 3` unchanged. -/
theorem applyLoop_spec (source : List Nat) :
    ∀ (rest : List Nat) (dst : Nat) (output : List Nat),
    (∀ s ∈ rest, s * 3 + 2 < source.length) →
    (dst + rest.length) * 3 ≤ output.length →
    ∃ out, applyLoop source rest dst output = some out ∧
      out.length = output.length ∧
      (∀ j, j < dst * 3 → out[j]? = output[j]?) ∧
      (∀ j, (dst + rest.length) * 3 ≤ j → out[j]? = output[j]?) ∧
      (∀ i s, rest[i]? = some s → ∀ c, c < 3 →
        out[(dst + i) * 3 + c]? = source[s * 3 + c]?) := by
  intro rest
  induction rest with
  | nil =>
    intro dst output _ _
    exact ⟨output, rfl, rfl, fun _ _ => rfl, fun _ _ => rfl,
      fun i s h => by simp at h⟩
  | cons src rest ih =>
    intro dst output hrange hroom
    have hsrc : src * 3 + 2 < source.length := hrange src (List.mem_cons_self src rest)
    have hdst : dst * 3 + 2 < output.length := by
      have := hroom
      simp only [List.length_cons] at this
      omega
    obtain ⟨o, ho, holen, howr, hountouched⟩ :=
      copyPixel_spec source output dst src hsrc hdst
    obtain ⟨out, hout, houtlen, houtlow, houthigh, houtwr⟩ :=
      ih (dst + 1) o (fun s hs => hrange s (List.mem_cons_of_mem src hs))
        (by simp only [List.length_cons] at hroom; omega)
    refine ⟨out, ?_, ?_, ?_, ?_, ?_⟩
    · rw [applyLoop, ho, Option.some_bind, hout]
    · rw [houtlen, holen]
    · intro j hj
      rw [houtlow j (by omega), hountouched j (Or.inl hj)]
    · intro j hj
      simp only [List.length_cons] at hj
      rw [houthigh j (by omega), hountouched j (Or.inr (by omega))]
    · intro i s hi c hc
      match i, hi with
      | 0, hi =>
        simp only [List.getElem?_cons_zero, Option.some.injEq] at hi
        subst hi
        rw [Nat.add_zero, houtlow (dst * 3 + c) (by omega)]
        exact howr c hc
      | i + 1, hi =>
        simp only [List.getElem?_cons_succ] at hi
        have := houtwr i s hi c hc
        rw [show dst + (i + 1) = dst + 1 + i by omega]
        exact this

theorem setByte_some_inv {output : List Nat} {i v : Nat} {o : List Nat}
    (h : setByte output i v = some o) :
    i < output.length ∧ o = output.set i v := by
  unfold setByte at h
  split at h
  · cases h; exact ⟨by assumption, rfl⟩
  · cases h

/-- Inversion for one copy-loop iteration: if it succeeded, every access it
performed was in bounds and the buffer length is preserved. -/
theorem copyPixel_some_inv {source output : List Nat} {dst src : Nat}
    {o : List Nat} (h : copyPixel source output dst src = some o) :
    src * 3 + 2 < source.length ∧ dst * 3 + 2 < output.length ∧
      o.length = output.length := by
  rw [copyPixel] at h
  rw [Option.bind_eq_some] at h; obtain ⟨b0, hb0, h⟩ := h
  rw [Option.bind_eq_some] at h; obtain ⟨b1, hb1, h⟩ := h
  rw [Option.bind_eq_some] at h; obtain ⟨b2, hb2, h⟩ := h
  rw [Option.bind_eq_some] at h; obtain ⟨o0, ho0, h⟩ := h
  rw [Option.bind_eq_some] at h; obtain ⟨o1, ho1, h⟩ := h
  obtain ⟨hsrc, -⟩ := List.getElem?_eq_some.mp hb2
  obtain ⟨hi0, ho0e⟩ := setByte_some_inv ho0
  obtain ⟨hi1, ho1e⟩ := setByte_some_inv ho1
  obtain ⟨hi2, ho2e⟩ := setByte_some_inv h
  subst ho0e ho1e ho2e
  simp only [List.length_set] at hi2 ⊢
  exact ⟨hsrc, hi2, trivial⟩

/-- Inversion for the copy loop: if it succeeded, every source index that
was read was in bounds and every destination slot that was written was in
bounds of the output buffer. -/
theorem applyLoop_some_inv (source : List Nat) :
    ∀ (rest : List Nat) (dst : Nat) (output out : List Nat),
    applyLoop source rest dst output = some out →
    (∀ s ∈ rest, s * 3 + 2 < source.length) ∧
      (∀ i, i < rest.length → (dst + i) * 3 + 2 < output.length) := by
  intro rest
  induction rest with
  | nil =>
    intro dst output out _
    exact ⟨fun s hs => absurd hs (List.not_mem_nil s),
      fun i hi => absurd hi (by simp)⟩
  | cons src rest ih =>
    intro dst output out h
    rw [applyLoop, Option.bind_eq_some] at h
    obtain ⟨o, ho, hrest⟩ := h
    obtain ⟨hs, hd, hlen⟩ := copyPixel_some_inv ho
    obtain ⟨hall, hroom⟩ := ih (dst + 1) o out hrest
    refine ⟨?_, ?_⟩
    · intro s hmem
      rcases List.mem_cons.mp hmem with rfl | hmem
      · exact hs
      · exact hall s hmem
    · intro i hi
      match i, hi with
      | 0, _ => simpa using hd
      | i + 1, hi =>
        simp only [List.length_cons, Nat.add_lt_add_iff_right] at hi
        have := hroom i hi
        rw [hlen] at this
        rw [show dst + (i + 1) = dst + 1 + i by omega]
        exact this

/-- Shared characterization of `applyAssignments` on an in-range assignment
over an `N * N`-pixel source: success, length preservation, and the
per-destination-slot copy property. -/
theorem applyAssignments_char (N : Nat) (source assignments : List Nat)
    (hsrc : source.length = N * N * 3)
    (hlen : assignments.length = N * N)
    (hrange : ∀ s ∈ assignments, s < N * N) :
    ∃ out, applyAssignments source assignments = some out ∧
      out.length = source.length ∧
      (∀ d s, assignments[d]? = some s → ∀ c, c < 3 →
        out[d * 3 + c]? = source[s * 3 + c]?) := by
  obtain ⟨out, hrun, hl, _, _, hwr⟩ :=
    applyLoop_spec source assignments 0 (List.replicate source.length 0)
      (fun s hs => by have := hrange s hs; omega)
      (by simp only [List.length_replicate]; omega)
  refine ⟨out, hrun, ?_, ?_⟩
  · rw [hl, List.length_replicate]
  · intro d s hd c hc
    have := hwr d s hd c hc
    simpa using this

/-- C1: for every RGB source buffer of `N * N` pixels (3 bytes per pixel)
and every assignment of length `N * N` whose entries are all in-range source
indices, the output buffer built by `write_results`' assignment-application
loop exists, has the same length as the source buffer, and for every
destination index `d` its 3 bytes at position `d` equal the 3 bytes of the
source pixel at index `assignment[d]`. -/
theorem applyAssignments_spec (N : Nat) (source assignments : List Nat)
    (hsrc : source.length = N * N * 3)
    (hlen : assignments.length = N * N)
    (hrange : ∀ s ∈ assignments, s < N * N) :
    ∃ out, applyAssignments source assignments = some out ∧
      out.length = source.length ∧
      (∀ d s, assignments[d]? = some s → ∀ c, c < 3 →
        out[d * 3 + c]? = source[s * 3 + c]?) :=
  applyAssignments_char N source assignments hsrc hlen hrange

/-- Witness for C1 at `N = 1`, source `[5, 6, 7]`, assignment `[0]`. -/
theorem applyAssignments_spec_witness :
    ∃ out, applyAssignments [5, 6, 7] [0] = some out ∧
      out.length = ([5, 6, 7] : List Nat).length ∧
      (∀ d s, ([0] : List Nat)[d]? = some s → ∀ c, c < 3 →
        out[d * 3 + c]? = ([5, 6, 7] : List Nat)[s * 3 + c]?) :=
  applyAssignments_spec 1 [5, 6, 7] [0] (by decide) (by decide) (by decide)

/-- C2 counterexample: the assignment `[0, 0, 1, 2]` on a 2x2 source has a
duplicate index (and correspondingly misses index 3), yet the application
loop in `write_results` succeeds and produces an output buffer — it does not
fail with any `MalformedAssignment` error. -/
theorem applyAssignments_duplicate_succeeds :
    (applyAssignments
      [10, 11, 12, 20, 21, 22, 30, 31, 32, 40, 41, 42]
      [0, 0, 1, 2]).isSome = true := by decide

/-- C2 amended: the application loop fails (by an out-of-bounds buffer
access, modelled as `none`; no output buffer and no `MalformedAssignment`
value are produced) exactly when the assignment contains an out-of-range
source index or is longer than the grid; duplicate indices and shorter
lengths are not detected and do not cause a failure. -/
theorem applyAssignments_isSome_iff (N : Nat) (source assignments : List Nat)
    (hsrc : source.length = N * N * 3) :
    (applyAssignments source assignments).isSome = true ↔
      (assignments.length ≤ N * N ∧ ∀ s ∈ assignments, s < N * N) := by
  constructor
  · intro h
    rw [Option.isSome_iff_exists] at h
    obtain ⟨out, hout⟩ := h
    obtain ⟨hall, hroom⟩ := applyLoop_some_inv source assignments 0
      (List.replicate source.length 0) out hout
    constructor
    · rcases Nat.eq_zero_or_pos assignments.length with hz | hpos
      · omega
      · have := hroom (assignments.length - 1) (by omega)
        rw [List.length_replicate] at this
        omega
    · intro s hs
      have := hall s hs
      omega
  · intro ⟨h1, h2⟩
    obtain ⟨out, hrun, -⟩ :=
      applyLoop_spec source assignments 0 (List.replicate source.length 0)
        (fun s hs => by have := h2 s hs; omega)
        (by simp only [List.length_replicate]; omega)
    rw [applyAssignments, hrun]
    rfl

/-- Witness for the amended C2: on a 2x2 source, the assignment `[0, 0, 5]`
contains the out-of-range index 5, and application indeed fails. -/
theorem applyAssignments_isSome_iff_witness :
    ((applyAssignments
        [10, 11, 12, 20, 21, 22, 30, 31, 32, 40, 41, 42]
        [0, 0, 5]).isSome = true ↔
      (([0, 0, 5] : List Nat).length ≤ 2 * 2 ∧
        ∀ s ∈ ([0, 0, 5] : List Nat), s < 2 * 2)) :=
  applyAssignments_isSome_iff 2
    [10, 11, 12, 20, 21, 22, 30, 31, 32, 40, 41, 42] [0, 0, 5] (by decide)

/-- C3: applying a permutation `a` to an `N * N`-pixel source buffer and
then applying its inverse permutation `b` to the result recovers the source
buffer exactly. -/
theorem applyAssignments_roundTrip (N : Nat) (source a b : List Nat)
    (hsrc : source.length = N * N * 3)
    (ha : a.length = N * N) (hb : b.length = N * N)
    (haR : ∀ s ∈ a, s < N * N) (hbR : ∀ s ∈ b, s < N * N)
    (hab : ∀ d, d < N * N → ∀ s, s < N * N → a[d]? = some s → b[s]? = some d)
    (hba : ∀ d, d < N * N → ∀ s, s < N * N → b[d]? = some s → a[s]? = some d) :
    ∃ out1 out2, applyAssignments source a = some out1 ∧
      applyAssignments out1 b = some out2 ∧ out2 = source := by
  obtain ⟨out1, hrun1, hlen1, hwr1⟩ := applyAssignments_char N source a hsrc ha haR
  obtain ⟨out2, hrun2, hlen2, hwr2⟩ :=
    applyAssignments_char N out1 b (hlen1.trans hsrc) hb hbR
  refine ⟨out1, out2, hrun1, hrun2, ?_⟩
  apply List.ext_getElem?
  intro j
  rcases Nat.lt_or_ge j (N * N * 3) with hj | hj
  · have hd : j / 3 < N * N := by omega
    have hc : j % 3 < 3 := Nat.mod_lt _ (by omega)
    have hjeq : j = (j / 3) * 3 + j % 3 := by omega
    obtain ⟨s, hbs⟩ : ∃ s, b[j / 3]? = some s :=
      ⟨b.get ⟨j / 3, by omega⟩, List.getElem?_eq_getElem (by omega)⟩
    have hsR : s < N * N := hbR s (List.getElem?_mem hbs)
    have has : a[s]? = some (j / 3) := hba (j / 3) hd s hsR hbs
    rw [hjeq, hwr2 (j / 3) s hbs (j % 3) hc, hwr1 s (j / 3) has (j % 3) hc]
  · rw [List.getElem?_eq_none (by rw [hlen2, hlen1]; omega),
      List.getElem?_eq_none (by omega)]

/-! ### Progress channel and consumer loop (C5, C6) -/

theorem workerMessages_cons (m : ProgressMsg) (rest : List ProgressMsg)
    (res : Except String Unit) :
    workerMessages (m :: rest) res = m :: workerMessages rest res := by
  simp [workerMessages]

theorem firstTerminal_cons_skip (m : ProgressMsg) (h : isTerminal m = false)
    (rest : List ProgressMsg) :
    firstTerminal (m :: rest) = firstTerminal rest :=
  List.find?_cons_of_neg _ (by simp [h])

theorem firstTerminal_cons_term (m : ProgressMsg) (h : isTerminal m = true)
    (rest : List ProgressMsg) : firstTerminal (m :: rest) = some m :=
  List.find?_cons_of_pos _ (by simp [h])

/-- C5: if the solver function invoked on the worker thread returns an
`Err` (after having sent only non-terminal messages), the error is
delivered to the consumer as a terminal `Error` message on the progress
channel carrying the error's message string: it is the first terminal
message on the channel, and draining the channel ends in the `Error`
branch with exactly that string. -/
theorem worker_error_delivered (sent : List ProgressMsg) (e : String)
    (hterm : ∀ m ∈ sent, isTerminal m = false) :
    firstTerminal (workerMessages sent (Except.error e)) =
      some (ProgressMsg.Error e) ∧
    consume (workerMessages sent (Except.error e)) =
      ConsumeOutcome.errorExit e := by
  induction sent with
  | nil => exact ⟨rfl, rfl⟩
  | cons m rest ih =>
    have hm := hterm m (List.mem_cons_self m rest)
    obtain ⟨ih1, ih2⟩ := ih fun m' hm' => hterm m' (List.mem_cons_of_mem m hm')
    cases m with
    | Progress p =>
      rw [workerMessages_cons,
        firstTerminal_cons_skip (ProgressMsg.Progress p) rfl]
      exact ⟨ih1, by simp only [consume]; exact ih2⟩
    | UpdatePreview pr =>
      rw [workerMessages_cons,
        firstTerminal_cons_skip (ProgressMsg.UpdatePreview pr) rfl]
      exact ⟨ih1, by simp only [consume]; exact ih2⟩
    | UpdateAssignments a =>
      rw [workerMessages_cons,
        firstTerminal_cons_skip (ProgressMsg.UpdateAssignments a) rfl]
      exact ⟨ih1, by simp only [consume]; exact ih2⟩
    | Done p => simp [isTerminal] at hm
    | Error e' => simp [isTerminal] at hm
    | Cancelled => simp [isTerminal] at hm

/-- Witness for C5: after two non-terminal messages, a solver `Err "boom"`
reaches the consumer as the terminal `Error "boom"`. -/
theorem worker_error_delivered_witness :
    firstTerminal (workerMessages
        [ProgressMsg.Progress 0, ProgressMsg.UpdateAssignments [0]]
        (Except.error "boom")) = some (ProgressMsg.Error "boom") ∧
    consume (workerMessages
        [ProgressMsg.Progress 0, ProgressMsg.UpdateAssignments [0]]
        (Except.error "boom")) = ConsumeOutcome.errorExit "boom" :=
  worker_error_delivered
    [ProgressMsg.Progress 0, ProgressMsg.UpdateAssignments [0]] "boom"
    (by decide)

/-- C6: the consumer loop of generate_assignments writes result files only
upon a `Done` terminal message; when the first terminal message is `Error`
or `Cancelled` (or the channel closes with no terminal message) it writes
no files and the process exits with status 1, while `Done` writes the
result files and exits with status 0. -/
theorem consume_terminal_behavior (msgs : List ProgressMsg) :
    ((∃ fs, consume msgs = ConsumeOutcome.doneOk fs) ↔
      (∃ p, firstTerminal msgs = some (ProgressMsg.Done p))) ∧
    (∀ p, firstTerminal msgs = some (ProgressMsg.Done p) →
      consume msgs = ConsumeOutcome.doneOk (filesFor p) ∧
        exitCode (consume msgs) = 0) ∧
    (∀ e, firstTerminal msgs = some (ProgressMsg.Error e) →
      consume msgs = ConsumeOutcome.errorExit e ∧
        writtenFiles (consume msgs) = [] ∧ exitCode (consume msgs) = 1) ∧
    (firstTerminal msgs = some ProgressMsg.Cancelled →
      consume msgs = ConsumeOutcome.cancelledExit ∧
        writtenFiles (consume msgs) = [] ∧ exitCode (consume msgs) = 1) ∧
    (firstTerminal msgs = none →
      writtenFiles (consume msgs) = [] ∧ exitCode (consume msgs) = 1) := by
  induction msgs with
  | nil => simp [consume, firstTerminal, writtenFiles, exitCode]
  | cons m rest ih =>
    cases m with
    | Progress p =>
      rw [firstTerminal_cons_skip (ProgressMsg.Progress p) rfl]
      simp only [consume]
      exact ih
    | UpdatePreview pr =>
      rw [firstTerminal_cons_skip (ProgressMsg.UpdatePreview pr) rfl]
      simp only [consume]
      exact ih
    | UpdateAssignments a =>
      rw [firstTerminal_cons_skip (ProgressMsg.UpdateAssignments a) rfl]
      simp only [consume]
      exact ih
    | Done p =>
      rw [firstTerminal_cons_term (ProgressMsg.Done p) rfl]
      simp [consume, writtenFiles, exitCode]
    | Error e =>
      rw [firstTerminal_cons_term (ProgressMsg.Error e) rfl]
      simp [consume, writtenFiles, exitCode]
    | Cancelled =>
      rw [firstTerminal_cons_term ProgressMsg.Cancelled rfl]
      simp [consume, writtenFiles, exitCode]

/-- Witness for C6: a channel whose first terminal message is `Cancelled`
ends with nothing written and exit status 1. -/
theorem consume_terminal_behavior_witness :
    consume [ProgressMsg.Progress 0, ProgressMsg.Cancelled] =
        ConsumeOutcome.cancelledExit ∧
      writtenFiles (consume [ProgressMsg.Progress 0, ProgressMsg.Cancelled]) =
        [] ∧
      exitCode (consume [ProgressMsg.Progress 0, ProgressMsg.Cancelled]) = 1 :=
  (consume_terminal_behavior
    [ProgressMsg.Progress 0, ProgressMsg.Cancelled]).2.2.2.1 (by decide)

/-! ### Numeric argument fallbacks (C9, C10) -/

/-- C9: in generate_assignments, an absent `sidelen` argument and an
argument that does not parse as a `u32` both silently fall back to the
source image's width, and a parseable value is used as given; no error is
ever reported for an unparseable value. -/
theorem sidelenOf_fallback (w : Nat) (s : String) :
    sidelenOf none w = w ∧
    (parseU32 s = none → sidelenOf (some s) w = w) ∧
    (∀ v, parseU32 s = some v → sidelenOf (some s) w = v) := by
  refine ⟨rfl, ?_, ?_⟩
  · intro h
    simp [sidelenOf, h]
  · intro v h
    simp [sidelenOf, h]

/-- Witness for C9: the unparseable argument `"12x"` falls back to the
width 7, and the parseable argument `"32"` is used. -/
theorem sidelenOf_fallback_witness :
    sidelenOf none 7 = 7 ∧ sidelenOf (some "12x") 7 = 7 ∧
      sidelenOf (some "32") 7 = 32 :=
  ⟨(sidelenOf_fallback 7 "12x").1,
   (sidelenOf_fallback 7 "12x").2.1 (by decide),
   (sidelenOf_fallback 7 "32").2.2 32 (by decide)⟩

/-- The weight mask always comes out at the computed side, whether or not a
resize was needed (generate_weights.rs:40-43). -/
theorem generateWeights_dims (img : RgbImage) (arg : Option String) :
    (generateWeights img arg).width = weightsSide arg img.width img.height ∧
    (generateWeights img arg).height = weightsSide arg img.width img.height := by
  simp only [generateWeights]
  split
  · exact ⟨rfl, rfl⟩
  · next h =>
    push_neg at h
    exact ⟨h.1, h.2⟩

/-- C10: in generate_weights, when the `size` argument is absent or does not
parse as a `u32`, the output side length is `min(width, height)` — which
differs from the input width documented as the default (witnessed by a 2x1
input coming out at side 1). -/
theorem weightsSide_default_min (img : RgbImage) (s : String) :
    (generateWeights img none).width = min img.width img.height ∧
    (generateWeights img none).height = min img.width img.height ∧
    (parseU32 s = none →
      (generateWeights img (some s)).width = min img.width img.height ∧
      (generateWeights img (some s)).height = min img.width img.height) ∧
    (generateWeights { width := 2, height := 1, data := [9, 9, 9, 9, 9, 9] }
      none).width ≠ 2 := by
  refine ⟨(generateWeights_dims img none).1, (generateWeights_dims img none).2,
    ?_, ?_⟩
  · intro h
    have hws : weightsSide (some s) img.width img.height =
        min img.width img.height := by
      simp [weightsSide, h]
    exact ⟨(generateWeights_dims img (some s)).1.trans hws,
      (generateWeights_dims img (some s)).2.trans hws⟩
  · rw [(generateWeights_dims _ none).1]
    decide

/-- Witness for C10: a 2x1 input with the unparseable size `"ten"` comes out
at side `min 2 1 = 1`, not at the documented default width 2. -/
theorem weightsSide_default_min_witness :
    (generateWeights { width := 2, height := 1, data := [9, 9, 9, 9, 9, 9] }
        (some "ten")).width = min 2 1 ∧
    (generateWeights { width := 2, height := 1, data := [9, 9, 9, 9, 9, 9] }
        (some "ten")).height = min 2 1 :=
  (weightsSide_default_min
    { width := 2, height := 1, data := [9, 9, 9, 9, 9, 9] } "ten").2.2.1
    (by decide)

/-! ### Weight-mask derivation (C7) -/

theorem luminance_lt_256 {r g b : Nat} (hr : r < 256) (hg : g < 256)
    (hb : b < 256) : luminance r g b < 256 := by
  unfold luminance
  omega

theorem getD_lt_256 {l : List Nat} (h : ∀ v ∈ l, v < 256) (i : Nat) :
    l.getD i 0 < 256 := by
  rw [List.getD_eq_getElem?_getD]
  rcases hlt : l[i]? with _ | v
  · simp
  · simpa using h v (List.getElem?_mem hlt)

theorem toLuma8_data_length (img : RgbImage) :
    (toLuma8 img).data.length = img.width * img.height := by
  simp [toLuma8]

theorem toLuma8_data_lt (img : RgbImage) (h : ∀ v ∈ img.data, v < 256) :
    ∀ v ∈ (toLuma8 img).data, v < 256 := by
  intro v hv
  simp only [toLuma8, List.mem_map] at hv
  obtain ⟨i, -, rfl⟩ := hv
  exact luminance_lt_256 (getD_lt_256 h _) (getD_lt_256 h _) (getD_lt_256 h _)

theorem resizeGray_data_lt (img : GrayImage) (w h : Nat)
    (hd : ∀ v ∈ img.data, v < 256) :
    ∀ v ∈ (resizeGray img w h).data, v < 256 := by
  intro v hv
  simp only [resizeGray, List.mem_map] at hv
  obtain ⟨i, -, rfl⟩ := hv
  exact getD_lt_256 hd _

/-- C7: for every input image and requested (parsed) side length,
generate_weights produces a single-channel grid of exactly `side x side`
pixels (one byte per pixel, 8-bit values when the input bytes are 8-bit)
whose per-pixel value is the input's luminance — exactly the luminance grid
when the input already has the requested dimensions, and a resampling of it
otherwise. -/
theorem generateWeights_spec (img : RgbImage) (arg : Option String)
    (side : Nat) (hside : arg.bind parseU32 = some side) :
    (generateWeights img arg).width = side ∧
    (generateWeights img arg).height = side ∧
    (generateWeights img arg).data.length = side * side ∧
    ((∀ v ∈ img.data, v < 256) →
      ∀ v ∈ (generateWeights img arg).data, v < 256) ∧
    (img.width = side → img.height = side →
      generateWeights img arg = toLuma8 img) := by
  have hws : weightsSide arg img.width img.height = side := by
    simp [weightsSide, hside]
  simp only [generateWeights, hws]
  by_cases hc : (toLuma8 img).width ≠ side ∨ (toLuma8 img).height ≠ side
  · rw [if_pos hc]
    refine ⟨rfl, rfl, by simp [resizeGray], ?_, ?_⟩
    · intro hr
      exact resizeGray_data_lt _ _ _ (toLuma8_data_lt img hr)
    · intro h1 h2
      exfalso
      rcases hc with hc | hc
      · exact hc h1
      · exact hc h2
  · rw [if_neg hc]
    push_neg at hc
    refine ⟨hc.1, hc.2, ?_, fun hr => toLuma8_data_lt img hr, fun _ _ => rfl⟩
    rw [toLuma8_data_length]
    have h1 : img.width = side := hc.1
    have h2 : img.height = side := hc.2
    rw [h1, h2]

/-- Witness for C7: a 1x1 all-white input at requested side 1. -/
theorem generateWeights_spec_witness :
    (generateWeights { width := 1, height := 1, data := [255, 128, 0] }
        (some "1")).width = 1 ∧
    (generateWeights { width := 1, height := 1, data := [255, 128, 0] }
        (some "1")).height = 1 ∧
    (generateWeights { width := 1, height := 1, data := [255, 128, 0] }
        (some "1")).data.length = 1 * 1 ∧
    ((∀ v ∈ ({ width := 1, height := 1, data := [255, 128, 0] } :
        RgbImage).data, v < 256) →
      ∀ v ∈ (generateWeights { width := 1, height := 1, data := [255, 128, 0] }
        (some "1")).data, v < 256) ∧
    (({ width := 1, height := 1, data := [255, 128, 0] } : RgbImage).width = 1 →
      ({ width := 1, height := 1, data := [255, 128, 0] } : RgbImage).height = 1 →
      generateWeights { width := 1, height := 1, data := [255, 128, 0] }
          (some "1") =
        toLuma8 { width := 1, height := 1, data := [255, 128, 0] }) :=
  generateWeights_spec { width := 1, height := 1, data := [255, 128, 0] }
    (some "1") 1 (by decide)

/-- Witness for C3 at `N = 2` with the swap permutation `[1, 0, 3, 2]`,
which is its own inverse. -/
theorem applyAssignments_roundTrip_witness :
    ∃ out1 out2,
      applyAssignments
        [10, 11, 12, 20, 21, 22, 30, 31, 32, 40, 41, 42] [1, 0, 3, 2] =
        some out1 ∧
      applyAssignments out1 [1, 0, 3, 2] = some out2 ∧
      out2 = [10, 11, 12, 20, 21, 22, 30, 31, 32, 40, 41, 42] :=
  applyAssignments_roundTrip 2
    [10, 11, 12, 20, 21, 22, 30, 31, 32, 40, 41, 42]
    [1, 0, 3, 2] [1, 0, 3, 2] (by decide) (by decide) (by decide)
    (by decide) (by decide) (by decide) (by decide)

/-! ### Persisted assignment serialization round-trip (C4) -/

theorem natToRevDigits_lt (n : Nat) : ∀ d ∈ natToRevDigits n, d < 10 := by
  induction n using Nat.strong_induction_on with
  | _ n ih =>
    rw [natToRevDigits]
    split
    · intro d hd
      simp only [List.mem_singleton] at hd
      omega
    · intro d hd
      rcases List.mem_cons.mp hd with rfl | hd
      · exact Nat.mod_lt _ (by omega)
      · exact ih (n / 10) (Nat.div_lt_self (by omega) (by omega)) d hd

theorem natToRevDigits_ne_nil (n : Nat) : natToRevDigits n ≠ [] := by
  rw [natToRevDigits]
  split <;> simp

theorem foldl_revDigits (n : Nat) : ∀ acc : Nat,
    (natToRevDigits n).reverse.foldl (fun a d => a * 10 + d) acc =
      acc * 10 ^ (natToRevDigits n).length + n := by
  induction n using Nat.strong_induction_on with
  | _ n ih =>
    intro acc
    rw [natToRevDigits]
    split
    · next h =>
      simp only [List.reverse_cons, List.reverse_nil, List.nil_append,
        List.foldl_cons, List.foldl_nil, List.length_singleton, pow_one]
    · next h =>
      rw [List.reverse_cons, List.foldl_append,
        ih (n / 10) (Nat.div_lt_self (by omega) (by omega)) acc,
        List.foldl_cons, List.foldl_nil, List.length_cons, pow_succ,
        ← Nat.mul_assoc]
      generalize acc * 10 ^ (natToRevDigits (n / 10)).length = A
      omega

theorem digitChar_isDigit {d : Nat} (h : d < 10) :
    (digitChar d).isDigit = true := by
  interval_cases d <;> decide

theorem digitChar_toNat {d : Nat} (h : d < 10) :
    (digitChar d).toNat - 48 = d := by
  interval_cases d <;> decide

theorem digitChar_ne_rbracket {d : Nat} (h : d < 10) : digitChar d ≠ ']' := by
  interval_cases d <;> decide

theorem parseDigits_append (ds : List Nat) : ∀ (acc : Nat) (rest : List Char),
    (∀ d ∈ ds, d < 10) →
    (∀ c, rest.head? = some c → c.isDigit = false) →
    parseDigits (ds.map digitChar ++ rest) acc =
      (ds.foldl (fun a d => a * 10 + d) acc, rest) := by
  induction ds with
  | nil =>
    intro acc rest _ hrest
    cases rest with
    | nil => rfl
    | cons c cs =>
      have hc := hrest c rfl
      simp [parseDigits, hc]
  | cons d ds ih =>
    intro acc rest hds hrest
    have hd : d < 10 := hds d (List.mem_cons_self _ _)
    simp only [List.map_cons, List.cons_append, parseDigits,
      digitChar_isDigit hd, if_true, List.foldl_cons]
    rw [digitChar_toNat hd]
    exact ih _ rest (fun d' h' => hds d' (List.mem_cons_of_mem _ h')) hrest

theorem parseDigits_natToChars (n : Nat) (rest : List Char)
    (hrest : ∀ c, rest.head? = some c → c.isDigit = false) :
    parseDigits (natToChars n ++ rest) 0 = (n, rest) := by
  unfold natToChars
  rw [parseDigits_append _ 0 rest
    (fun d hd => natToRevDigits_lt n d (List.mem_reverse.mp hd)) hrest]
  rw [foldl_revDigits]
  simp

theorem natToChars_head (n : Nat) :
    ∃ d ds, natToChars n = digitChar d :: ds ∧ d < 10 := by
  unfold natToChars
  rcases hrev : (natToRevDigits n).reverse with _ | ⟨d, ds⟩
  · exact absurd (List.reverse_eq_nil_iff.mp hrev) (natToRevDigits_ne_nil n)
  · refine ⟨d, ds.map digitChar, by simp, ?_⟩
    have : d ∈ (natToRevDigits n).reverse := by
      rw [hrev]; exact List.mem_cons_self _ _
    exact natToRevDigits_lt n d (List.mem_reverse.mp this)

theorem serializeElems_shape (n : Nat) (l : List Nat) :
    ∃ d tail, serializeElems (n :: l) = digitChar d :: tail ∧ d < 10 := by
  obtain ⟨d, ds, hnc, hd⟩ := natToChars_head n
  cases l with
  | nil => exact ⟨d, ds ++ [']'], by simp [serializeElems, hnc], hd⟩
  | cons m rest =>
    exact ⟨d, ds ++ ',' :: serializeElems (m :: rest),
      by simp [serializeElems, hnc], hd⟩

theorem parseElemsF_serializeElems :
    ∀ (l : List Nat), l ≠ [] → ∀ (fuel : Nat),
    (serializeElems l).length ≤ fuel →
    parseElemsF fuel (serializeElems l) = some l := by
  intro l
  induction l with
  | nil => exact fun h => absurd rfl h
  | cons n rest ih =>
    intro _ fuel hfuel
    obtain ⟨d, tail, hsh, hd⟩ := serializeElems_shape n rest
    have hlen : 1 ≤ (serializeElems (n :: rest)).length := by
      rw [hsh]; simp
    obtain ⟨fuel', rfl⟩ : ∃ f, fuel = f + 1 :=
      ⟨fuel - 1, by omega⟩
    cases rest with
    | nil =>
      have hfull : serializeElems [n] = natToChars n ++ [']'] := by
        simp [serializeElems]
      rw [hsh, parseElemsF, digitChar_isDigit hd, if_pos rfl, ← hsh, hfull,
        parseDigits_natToChars n [']'] (by intro c hc; cases hc; rfl)]
      rfl
    | cons m rest' =>
      have hfull : serializeElems (n :: m :: rest') =
          natToChars n ++ (',' :: serializeElems (m :: rest')) := by
        simp [serializeElems]
      rw [hsh, parseElemsF, digitChar_isDigit hd, if_pos rfl, ← hsh, hfull,
        parseDigits_natToChars n (',' :: serializeElems (m :: rest'))
          (by intro c hc; cases hc; rfl)]
      have hrec : parseElemsF fuel' (serializeElems (m :: rest')) =
          some (m :: rest') := by
        apply ih (by simp) fuel'
        have : (serializeElems (n :: m :: rest')).length =
            (natToChars n).length + 1 + (serializeElems (m :: rest')).length := by
          rw [hfull]; simp; omega
        omega
      show Option.map (fun l => n :: l)
        (parseElemsF fuel' (serializeElems (m :: rest'))) = some (n :: m :: rest')
      rw [hrec]
      rfl

/-- C4: serializing an assignments array (an ordered numeric array, index =
destination slot, value = source index) to JSON and deserializing the
result yields the original array — the persisted representation round-trips
losslessly. -/
theorem serializeAssignments_roundTrip (l : List Nat) :
    parseAssignmentsJson (serializeAssignments l) = some l := by
  cases l with
  | nil => rfl
  | cons n rest =>
    obtain ⟨d, tail, hsh, hd⟩ := serializeElems_shape n rest
    show parseAssignmentsJson ⟨'[' :: serializeElems (n :: rest)⟩ =
      some (n :: rest)
    rw [parseAssignmentsJson]
    simp only [hsh]
    split
    · next heq =>
      exfalso
      have : digitChar d = ']' := by
        have := congrArg (fun l => l.head?) heq
        simpa using this
      exact digitChar_ne_rbracket hd this
    · rw [← hsh]
      exact parseElemsF_serializeElems (n :: rest) (by simp) _ (le_refl _)

end Obamify
